import Mathlib

/-!
Verification development for the `tge_volume` exchange-data core
(`src/tge_volume/exchanges.py`).  The Python functions are shallowly
embedded: candles become a record of an integer open time (ms epoch) and
optional rational OHLCV fields (`none` models a missing value), the
exchange connector becomes an explicit function from a `since` cursor to a
page of candles, and the two unbounded `while` loops of
`_collect_full_ohlcv` become fuel-indexed recursions whose termination is
proved separately from the loop-stop hypotheses the spec states.
-/

namespace TgeVolume

/-- One OHLCV candle: open time in milliseconds plus optional numeric
fields, mirroring the `List[float]` rows (with possible `None` entries)
that ccxt returns. -/
structure Candle where
  ts : ℤ
  o : Option ℚ
  h : Option ℚ
  l : Option ℚ
  c : Option ℚ
  v : Option ℚ
deriving DecidableEq, Repr

/-- `candles[0][0]` of a page, when the page is non-empty. -/
def headTs (page : List Candle) : Option ℤ :=
  page.head?.map Candle.ts

/-- `candles[-1][0]` of a page (junk value 0 on an empty page; the code
only evaluates it on non-empty pages). -/
def lastTs (page : List Candle) : ℤ :=
  (page.getLast?.map Candle.ts).getD 0

/-- The backward-loop stop test
`earliest_batch is not None and candles[0][0] == earliest_batch[0][0]`. -/
def stopRepeat (earliest : Option (List Candle)) (candles : List Candle) : Bool :=
  match earliest with
  | none => false
  | some e => decide (headTs candles = headTs e)

/-- The backward-discovery loop of `_collect_full_ohlcv` (exchanges.py
lines 141-156), with explicit fuel: `none` means the fuel ran out before
the loop stopped.  State: the probe cursor `since` and the remembered
`earliest_batch`. -/
def backwardDiscover (fetch : ℤ → List Candle) (step : ℤ) :
    ℕ → ℤ → Option (List Candle) → Option (Option (List Candle))
  | 0, _, _ => none
  | fuel + 1, since, earliest =>
    let candles := fetch since
    if candles.isEmpty then some earliest
    else if stopRepeat earliest candles then some earliest
    else backwardDiscover fetch step fuel (since - step) (some candles)

/-- The forward-walk loop of `_collect_full_ohlcv` (exchanges.py lines
161-183), with explicit fuel, instrumented to also log every `since`
value it requests.  State: cursor `next_since`, `last_first_ts`, the
accumulated `all_candles`, and the request log. -/
def forwardCollect (fetch : ℤ → List Candle) (tfms : ℤ) (limit : ℕ) :
    ℕ → ℤ → Option ℤ → List Candle → List ℤ → Option (List Candle × List ℤ)
  | 0, _, _, _, _ => none
  | fuel + 1, since, lastFirst, acc, reqs =>
    let candles := fetch since
    let reqs2 := reqs ++ [since]
    if candles.isEmpty then some (acc, reqs2)
    else if lastFirst = headTs candles then some (acc, reqs2)
    else
      let acc2 := acc ++ candles
      if candles.length < limit then some (acc2, reqs2)
      else forwardCollect fetch tfms limit fuel (lastTs candles + tfms)
        (headTs candles) acc2 reqs2

/-- `dedup[t]` after `dedup = {candle[0]: candle for candle in all_candles}`:
the last candle in `allC` whose open time is `t`. -/
def lastWithTs (allC : List Candle) (t : ℤ) : Option Candle :=
  (allC.filter (fun c => decide (c.ts = t))).getLast?

/-- `[dedup[ts] for ts in sorted(dedup)]` (exchanges.py lines 185-186):
keep, for each distinct open time in ascending order, the last-written
candle with that open time. -/
def dedupSort (allC : List Candle) : List Candle :=
  (List.insertionSort (· ≤ ·) (allC.map Candle.ts).dedup).filterMap (lastWithTs allC)

/-- `_collect_full_ohlcv` assembled: backward discovery from
`now - timeframe_ms * limit`, then the forward walk from the earliest
page's first open time, then dedup-and-sort.  `none` means a loop ran out
of fuel (the Python loop would still be running). -/
def collectFullOhlcv (fetch : ℤ → List Candle) (now tfms : ℤ) (limit : ℕ)
    (fuel : ℕ) : Option (List Candle) :=
  match backwardDiscover fetch (tfms * (limit : ℤ)) fuel
      (now - tfms * (limit : ℤ)) none with
  | none => none
  | some none => some []
  | some (some []) => some []
  | some (some (c0 :: _)) =>
      (forwardCollect fetch tfms limit fuel c0.ts none [] []).map
        (fun p => dedupSort p.1)

/-! ### Pure iteration view of the two loops

For the termination/stop claims, the state of each loop after `i`
non-stopping iterations is expressed as a pure function of `i`, so that
"the loop stops at the first index where a stop condition fires" becomes
a statement about these functions. -/

/-- Probe cursor of the backward loop before iteration `i`:
it starts at `start` and decreases by `step` every iteration. -/
def backCursor (start step : ℤ) (i : ℕ) : ℤ := start - step * (i : ℤ)

/-- Page fetched at iteration `i` of the backward loop. -/
def backPage (fetch : ℤ → List Candle) (start step : ℤ) (i : ℕ) : List Candle :=
  fetch (backCursor start step i)

/-- `earliest_batch` before iteration `i` of the backward loop (assuming
no stop fired earlier): nothing at first, then the previous page. -/
def backEarliest (fetch : ℤ → List Candle) (start step : ℤ) : ℕ → Option (List Candle)
  | 0 => none
  | i + 1 => some (backPage fetch start step i)

/-- The backward loop's stop test at iteration `i`: the page is empty, or
its first open time repeats the remembered page's first open time. -/
def backStopB (fetch : ℤ → List Candle) (start step : ℤ) (i : ℕ) : Bool :=
  (backPage fetch start step i).isEmpty ||
    stopRepeat (backEarliest fetch start step i) (backPage fetch start step i)

/-- `next_since` cursor before request `i` of the forward walk. -/
def fwdSince (fetch : ℤ → List Candle) (tfms start : ℤ) : ℕ → ℤ
  | 0 => start
  | i + 1 => lastTs (fetch (fwdSince fetch tfms start i)) + tfms

/-- Page returned by request `i` of the forward walk. -/
def fwdPage (fetch : ℤ → List Candle) (tfms start : ℤ) (i : ℕ) : List Candle :=
  fetch (fwdSince fetch tfms start i)

/-- `last_first_ts` before request `i` of the forward walk. -/
def fwdPrev (fetch : ℤ → List Candle) (tfms start : ℤ) : ℕ → Option ℤ
  | 0 => none
  | i + 1 => headTs (fwdPage fetch tfms start i)

/-- Request `i`'s page is discarded (loop breaks before extending):
the page is empty or its first open time repeats `last_first_ts`. -/
def fwdDrop (fetch : ℤ → List Candle) (tfms start : ℤ) (i : ℕ) : Bool :=
  (fwdPage fetch tfms start i).isEmpty ||
    decide (fwdPrev fetch tfms start i = headTs (fwdPage fetch tfms start i))

/-- The forward walk's stop test at request `i`: empty page, repeated
first open time, or a page shorter than the requested limit. -/
def fwdStopB (fetch : ℤ → List Candle) (tfms start : ℤ) (limit : ℕ) (i : ℕ) : Bool :=
  fwdDrop fetch tfms start i ||
    decide ((fwdPage fetch tfms start i).length < limit)

/-- `all_candles` accumulated before request `i` of the forward walk
(assuming no stop fired earlier). -/
def fwdAcc (fetch : ℤ → List Candle) (tfms start : ℤ) : ℕ → List Candle
  | 0 => []
  | i + 1 => fwdAcc fetch tfms start i ++ fwdPage fetch tfms start i

/-! ### TGE statistics (`fetch_exchange_stats`) -/

/-- Python truthiness of one OHLCV price field: present and non-zero. -/
def priceTruthy : Option ℚ → Bool
  | none => false
  | some q => decide (q ≠ 0)

/-- `next((price for price in [close, open, high, low] if price), None)`
(exchanges.py lines 230-237). -/
def referencePrice (c : Candle) : Option ℚ :=
  ([c.c, c.o, c.h, c.l].find? priceTruthy).join

/-- `oldest_vol * reference_price if oldest_vol and reference_price else
None` (exchanges.py lines 239-241). -/
def first15mVolume (c : Candle) : Option ℚ :=
  match c.v, referencePrice c with
  | some v, some p => if v = 0 then none else some (v * p)
  | _, _ => none

/-- `start <= target_ts < start + day_timeframe_ms` for one daily candle. -/
def containsTs (dms target : ℤ) (c : Candle) : Bool :=
  decide (c.ts ≤ target) && decide (target < c.ts + dms)

/-- Python's `max(eligible, key=lambda c: c[0])`: fold keeping the current
maximum, replacing it only on a strictly larger key (first maximum wins). -/
def pyMaxByTs (c : Candle) (cs : List Candle) : Candle :=
  cs.foldl (fun m x => if m.ts < x.ts then x else m) c

/-- Day-candle selection of `fetch_exchange_stats` (exchanges.py lines
274-289): first candle containing the target, else the latest candle not
after the target, else the first returned candle; `none` only when no
daily candle was returned. -/
def selectDayCandle (day : List Candle) (dms target : ℤ) : Option Candle :=
  match day with
  | [] => none
  | d0 :: _ =>
    match day.find? (containsTs dms target) with
    | some c => some c
    | none =>
      match day.filter (fun c => decide (c.ts ≤ target)) with
      | [] => some d0
      | e :: es => some (pyMaxByTs e es)

/-- `exchange.parse_timeframe("1d") * 1000`. -/
def dayTfMs : ℤ := 86400000

/-- The guarded day-statistics stage of `fetch_exchange_stats`
(exchanges.py lines 256-297): fetch daily candles from two days before
the TGE open time, select the TGE day candle, read its open and high and
divide the high by the TGE candle's open; any raised failure (a failed
daily fetch, or the `None`-arithmetic `TypeError` when the selected
candle has no high while the TGE open is truthy) is swallowed, leaving
all three day fields absent. -/
def dayStage (fetchDay : ℤ → Except Unit (List Candle)) (oldestTs : ℤ)
    (oldestOpen : Option ℚ) : Option ℚ × Option ℚ × Option ℚ :=
  match fetchDay (oldestTs - dayTfMs * 2) with
  | .error _ => (none, none, none)
  | .ok day =>
    match selectDayCandle day dayTfMs oldestTs with
    | none => (none, none, none)
    | some dc =>
      match oldestOpen with
      | none => (dc.o, dc.h, none)
      | some q =>
        if q = 0 then (dc.o, dc.h, none)
        else
          match dc.h with
          | none => (none, none, none)
          | some hi => (dc.o, dc.h, some (hi / q))

/-- `expected_tge_ts and oldest_ts > expected_tge_ts`: a truthy
(non-`None`, non-zero) expected timestamp strictly before the earliest
open time. -/
def tgeNoteCheck (expected : Option ℤ) (oldestTs : ℤ) : Bool :=
  match expected with
  | none => false
  | some e => decide (e ≠ 0) && decide (e < oldestTs)

/-- The cautionary note attached when history starts after the expected
TGE. -/
def noteText : String := "История биржи начинается ПОСЛЕ TGE — реальный TGE недоступен"

/-- The per-exchange statistics record returned by
`fetch_exchange_stats`. -/
structure TgeStats where
  tge_ts : ℤ
  tge_open : Option ℚ
  first_15m_volume : Option ℚ
  day_open : Option ℚ
  day_high : Option ℚ
  day_delta_ratio : Option ℚ
  note : Option String
deriving DecidableEq, Repr

/-- `fetch_exchange_stats` (exchanges.py lines 189-307) over an abstract
15m-page fetcher and daily fetcher: collect the full series, derive the
15-minute statistics from its earliest candle, and either attach the
history-after-TGE note (day fields absent, no daily request) or run the
day stage.  `Except.error` models the raised `RuntimeError` (empty
history, or a loop that never stops — fuel exhaustion). -/
def fetchExchangeStats (fetch : ℤ → List Candle)
    (fetchDay : ℤ → Except Unit (List Candle)) (now tfms : ℤ)
    (limit fuel : ℕ) (expected : Option ℤ) : Except Unit TgeStats :=
  match collectFullOhlcv fetch now tfms limit fuel with
  | none => .error ()
  | some [] => .error ()
  | some (tc :: _) =>
    if tgeNoteCheck expected tc.ts then
      .ok { tge_ts := tc.ts, tge_open := tc.o,
            first_15m_volume := first15mVolume tc,
            day_open := none, day_high := none, day_delta_ratio := none,
            note := some noteText }
    else
      let d := dayStage fetchDay tc.ts tc.o
      .ok { tge_ts := tc.ts, tge_open := tc.o,
            first_15m_volume := first15mVolume tc,
            day_open := d.1, day_high := d.2.1, day_delta_ratio := d.2.2,
            note := none }

/-! ### Market resolution (`_prepare_exchange_market`) -/

/-- One ccxt market entry: the fields `_prepare_exchange_market` reads.
`base`/`quote` are optional because the code guards `market.get("base")`
and `market.get("quote")` for falsiness. -/
structure Market where
  base : Option String
  quote : Option String
  spot : Bool
  symbol : String
deriving DecidableEq, Repr

/-- Python's `str.upper()`, modelled as a character-wise uppercase map
(the exchange/asset symbols involved are ASCII). -/
def pyUpper (s : String) : String := ⟨s.data.map Char.toUpper⟩

/-- Python truthiness of an optional string: present and non-empty. -/
def strTruthy : Option String → Bool
  | none => false
  | some s => !(s.data.isEmpty)

/-- The per-market test of `_matching_markets` (exchanges.py lines
99-109): truthy base and quote, case-insensitive equality with the
normalized pair, and — when spot is preferred — a truthy spot flag. -/
def marketMatches (nb nq : String) (preferSpot : Bool) (m : Market) : Bool :=
  strTruthy m.base && strTruthy m.quote &&
    (pyUpper (m.base.getD "") == nb) && (pyUpper (m.quote.getD "") == nq) &&
    (!preferSpot || m.spot)

/-- `_matching_markets(prefer_spot)`. -/
def matchingMarkets (markets : List Market) (nb nq : String)
    (preferSpot : Bool) : List Market :=
  markets.filter (marketMatches nb nq preferSpot)

/-- The market-selection core of `_prepare_exchange_market` (exchanges.py
lines 96-121): first spot match, else first match at all, else the
pair-not-found error. -/
def prepareExchangeMarket (markets : List Market) (base quote : String) :
    Except Unit Market :=
  match matchingMarkets markets (pyUpper base) (pyUpper quote) true with
  | m :: _ => .ok m
  | [] =>
    match matchingMarkets markets (pyUpper base) (pyUpper quote) false with
    | m :: _ => .ok m
    | [] => .error ()

/-! ### Concrete fixtures used by witnesses -/

/-- 15m candle at open time 10. -/
def b1 : Candle := ⟨10, some 1, some 2, some 1, some 2, some 100⟩

/-- 15m candle at open time 20 (first write). -/
def b2 : Candle := ⟨20, some 2, some 3, some 1, some 2, some 50⟩

/-- A different candle at the same open time 20 (second write). -/
def b2x : Candle := ⟨20, some 5, some 6, some 4, some 5, some 25⟩

/-- 15m candle at open time 30. -/
def b3 : Candle := ⟨30, some 2, some 4, some 2, some 3, some 10⟩

/-- A connector whose pages overlap at open time 20 with differing data:
probing at 10 yields `[b1, b2]`, probing at 30 yields `[b2x, b3]`, and
everything else is empty. -/
def fetchB (s : ℤ) : List Candle :=
  if s = 10 then [b1, b2] else if s = 30 then [b2x, b3] else []

/-! ### Dedup-and-sort lemmas -/

theorem lastWithTs_eq_some {allC : List Candle} {t : ℤ} {c : Candle}
    (h : lastWithTs allC t = some c) : c ∈ allC ∧ c.ts = t := by
  have hc := List.mem_of_getLast?_eq_some h
  have hc2 := List.mem_filter.mp hc
  exact ⟨hc2.1, of_decide_eq_true hc2.2⟩

theorem lastWithTs_isSome {allC : List Candle} {t : ℤ}
    (h : ∃ c ∈ allC, c.ts = t) : ∃ c, lastWithTs allC t = some c := by
  rcases h with ⟨c, hc, hts⟩
  have hne : allC.filter (fun c => decide (c.ts = t)) ≠ [] := by
    intro hnil
    have := List.filter_eq_nil_iff.mp hnil c hc
    simp [hts] at this
  have := List.getLast?_isSome.mpr hne
  rcases Option.isSome_iff_exists.mp this with ⟨c0, hc0⟩
  exact ⟨c0, hc0⟩

theorem filterMap_lastWithTs_map_ts (allC : List Candle) :
    ∀ K : List ℤ, (∀ t ∈ K, ∃ c ∈ allC, c.ts = t) →
      (K.filterMap (lastWithTs allC)).map Candle.ts = K := by
  intro K
  induction K with
  | nil => intro _; rfl
  | cons t K ih =>
    intro hK
    rcases lastWithTs_isSome (hK t (List.mem_cons_self t K)) with ⟨c0, hc0⟩
    have hts := (lastWithTs_eq_some hc0).2
    rw [List.filterMap_cons, hc0, List.map_cons, hts,
      ih (fun u hu => hK u (List.mem_cons_of_mem t hu))]

theorem dedupSort_sorted_lt (allC : List Candle) :
    List.Sorted (· < ·) ((dedupSort allC).map Candle.ts) := by
  have hperm := List.perm_insertionSort (α := ℤ) (· ≤ ·) (allC.map Candle.ts).dedup
  have hmemK : ∀ t ∈ List.insertionSort (· ≤ ·) (allC.map Candle.ts).dedup,
      ∃ c ∈ allC, c.ts = t := by
    intro t ht
    have : t ∈ (allC.map Candle.ts).dedup := hperm.mem_iff.mp ht
    have : t ∈ allC.map Candle.ts := List.mem_dedup.mp this
    rcases List.mem_map.mp this with ⟨c, hc, hts⟩
    exact ⟨c, hc, hts⟩
  have hmap := filterMap_lastWithTs_map_ts allC _ hmemK
  have hsorted : List.Sorted (· ≤ ·)
      (List.insertionSort (· ≤ ·) (allC.map Candle.ts).dedup) :=
    List.sorted_insertionSort (· ≤ ·) _
  have hnodup : (List.insertionSort (· ≤ ·) (allC.map Candle.ts).dedup).Nodup :=
    hperm.nodup_iff.mpr (List.nodup_dedup _)
  rw [dedupSort, hmap]
  exact hsorted.lt_of_le hnodup

theorem dedupSort_last_write (allC : List Candle) :
    ∀ c ∈ dedupSort allC, lastWithTs allC c.ts = some c := by
  intro c hc
  rcases List.mem_filterMap.mp hc with ⟨t, _, ht⟩
  have := (lastWithTs_eq_some ht).2
  rw [this]
  exact ht

theorem dedupSort_mem_ts (allC : List Candle) (t : ℤ) :
    t ∈ allC.map Candle.ts ↔ t ∈ (dedupSort allC).map Candle.ts := by
  have hperm := List.perm_insertionSort (α := ℤ) (· ≤ ·) (allC.map Candle.ts).dedup
  have hmemK : ∀ u ∈ List.insertionSort (· ≤ ·) (allC.map Candle.ts).dedup,
      ∃ c ∈ allC, c.ts = u := by
    intro u hu
    have : u ∈ (allC.map Candle.ts).dedup := hperm.mem_iff.mp hu
    have : u ∈ allC.map Candle.ts := List.mem_dedup.mp this
    rcases List.mem_map.mp this with ⟨c, hc, hts⟩
    exact ⟨c, hc, hts⟩
  have hmap := filterMap_lastWithTs_map_ts allC _ hmemK
  rw [dedupSort, hmap, hperm.mem_iff, List.mem_dedup]

/-- **C1.** Every merged candle series returned by `_collect_full_ohlcv`
is the dedup-by-open-time (last write per timestamp wins) of the collected
pages, sorted ascending; its open times are strictly increasing, so each
open time appears exactly once. -/
theorem collect_full_ohlcv_sorted_dedup (fetch : ℤ → List Candle)
    (now tfms : ℤ) (limit fuel : ℕ) (res : List Candle)
    (hres : collectFullOhlcv fetch now tfms limit fuel = some res) :
    List.Sorted (· < ·) (res.map Candle.ts) ∧
    ∃ allC : List Candle, res = dedupSort allC ∧
      (∀ c ∈ res, lastWithTs allC c.ts = some c) ∧
      (∀ t : ℤ, t ∈ allC.map Candle.ts ↔ t ∈ res.map Candle.ts) := by
  unfold collectFullOhlcv at hres
  have hnil : res = ([] : List Candle) ∨ ∃ allC, res = dedupSort allC := by
    split at hres
    · exact absurd hres (by simp)
    · exact Or.inl (by injection hres with h; exact h.symm)
    · exact Or.inl (by injection hres with h; exact h.symm)
    · rcases Option.map_eq_some'.mp hres with ⟨p, _, hp2⟩
      exact Or.inr ⟨p.1, hp2.symm⟩
  have hds : ∃ allC, res = dedupSort allC := by
    rcases hnil with h | h
    · exact ⟨[], by rw [h]; rfl⟩
    · exact h
  rcases hds with ⟨allC, hallC⟩
  subst hallC
  exact ⟨dedupSort_sorted_lt allC,
    ⟨allC, rfl, dedupSort_last_write allC, fun t => dedupSort_mem_ts allC t⟩⟩

/-- **C1 witness.** On the overlapping-page connector `fetchB` the
collector returns `[b1, b2x, b3]`: the duplicate open time 20 keeps the
last-written candle `b2x`, and the open times 10, 20, 30 are strictly
increasing. -/
theorem collect_full_ohlcv_sorted_dedup_witness :
    collectFullOhlcv fetchB 50 10 2 3 = some [b1, b2x, b3] ∧
    (List.Sorted (· < ·) ([b1, b2x, b3].map Candle.ts) ∧
     ∃ allC : List Candle, [b1, b2x, b3] = dedupSort allC ∧
       (∀ c ∈ [b1, b2x, b3], lastWithTs allC c.ts = some c) ∧
       (∀ t : ℤ, t ∈ allC.map Candle.ts ↔ t ∈ [b1, b2x, b3].map Candle.ts)) :=
  ⟨by decide, collect_full_ohlcv_sorted_dedup fetchB 50 10 2 3 [b1, b2x, b3]
    (by decide)⟩

/-! ### Backward-discovery loop: iteration view and termination -/

theorem backCursor_succ (start step : ℤ) (i : ℕ) :
    backCursor start step (i + 1) = backCursor start step i - step := by
  unfold backCursor
  push_cast
  ring

theorem backward_run (fetch : ℤ → List Candle) (start step : ℤ) :
    ∀ d j : ℕ, (∀ i, i < d → backStopB fetch start step (j + i) = false) →
      backStopB fetch start step (j + d) = true →
      backwardDiscover fetch step (d + 1) (backCursor start step j)
          (backEarliest fetch start step j)
        = some (backEarliest fetch start step (j + d)) := by
  intro d
  induction d with
  | zero =>
    intro j _ hstop
    simp only [Nat.add_zero] at hstop ⊢
    simp only [backStopB, backPage, Bool.or_eq_true] at hstop
    rw [backwardDiscover]
    by_cases he : (fetch (backCursor start step j)).isEmpty
    · simp [he]
    · have hr : stopRepeat (backEarliest fetch start step j)
          (fetch (backCursor start step j)) = true := by
        rcases hstop with h | h
        · exact absurd h he
        · exact h
      simp [he, hr]
  | succ d ih =>
    intro j hno hstop
    have h0 : backStopB fetch start step j = false := by
      have := hno 0 (Nat.succ_pos d)
      simpa using this
    simp only [backStopB, backPage, Bool.or_eq_false_iff] at h0
    rw [backwardDiscover]
    simp only [h0.1, h0.2, Bool.false_eq_true, if_false]
    have hcur : backCursor start step j - step = backCursor start step (j + 1) :=
      (backCursor_succ start step j).symm
    have hear : (some (fetch (backCursor start step j)) : Option (List Candle))
        = backEarliest fetch start step (j + 1) := rfl
    rw [hcur, hear]
    have hidx : j + 1 + d = j + (d + 1) := by omega
    have := ih (j + 1)
      (fun i hi => by
        have := hno (i + 1) (Nat.succ_lt_succ hi)
        have harr : j + (i + 1) = j + 1 + i := by omega
        rwa [harr] at this)
      (by rwa [hidx])
    rwa [hidx] at this

/-- **C2.** The backward-discovery loop of `_collect_full_ohlcv` starts
its probe cursor at `now - timeframe_ms * limit`, decreases it by exactly
that amount — hence strictly — on every iteration, and, for every
connector that eventually returns an empty page or a page whose first
open time repeats the remembered page's first open time, stops at the
first such iteration with the last remembered (necessarily non-empty)
page as the earliest page. -/
theorem backward_discovery_terminates (fetch : ℤ → List Candle)
    (now tfms : ℤ) (limit : ℕ) (hpos : 0 < tfms * (limit : ℤ))
    (hstop : ∃ i, backStopB fetch (now - tfms * (limit : ℤ))
      (tfms * (limit : ℤ)) i = true) :
    backCursor (now - tfms * (limit : ℤ)) (tfms * (limit : ℤ)) 0
        = now - tfms * (limit : ℤ) ∧
    (∀ i, backCursor (now - tfms * (limit : ℤ)) (tfms * (limit : ℤ)) (i + 1)
        = backCursor (now - tfms * (limit : ℤ)) (tfms * (limit : ℤ)) i
          - tfms * (limit : ℤ)) ∧
    (∀ i, backCursor (now - tfms * (limit : ℤ)) (tfms * (limit : ℤ)) (i + 1)
        < backCursor (now - tfms * (limit : ℤ)) (tfms * (limit : ℤ)) i) ∧
    ∃ k, (∀ j, j < k → backStopB fetch (now - tfms * (limit : ℤ))
          (tfms * (limit : ℤ)) j = false) ∧
      backStopB fetch (now - tfms * (limit : ℤ)) (tfms * (limit : ℤ)) k = true ∧
      (∀ e, backEarliest fetch (now - tfms * (limit : ℤ))
          (tfms * (limit : ℤ)) k = some e → e ≠ []) ∧
      backwardDiscover fetch (tfms * (limit : ℤ)) (k + 1)
          (now - tfms * (limit : ℤ)) none
        = some (backEarliest fetch (now - tfms * (limit : ℤ))
            (tfms * (limit : ℤ)) k) := by
  refine ⟨by simp [backCursor], fun i => backCursor_succ _ _ i, ?_, ?_⟩
  · intro i
    rw [backCursor_succ]
    omega
  · classical
    refine ⟨Nat.find hstop, ?_, Nat.find_spec hstop, ?_, ?_⟩
    · intro j hj
      have := Nat.find_min hstop hj
      exact Bool.not_eq_true _ ▸ eq_false_of_ne_true this
    · intro e he
      cases hk : Nat.find hstop with
      | zero => rw [hk] at he; exact absurd he (by simp [backEarliest])
      | succ k =>
        rw [hk] at he
        have hkf : backStopB fetch (now - tfms * (limit : ℤ))
            (tfms * (limit : ℤ)) k = false := by
          have := Nat.find_min hstop (by omega : k < Nat.find hstop)
          exact eq_false_of_ne_true this
        simp only [backStopB, Bool.or_eq_false_iff] at hkf
        simp only [backEarliest, Option.some_inj] at he
        intro hnil
        rw [← he] at hnil
        rw [hnil] at hkf
        simp at hkf
    · have hrun := backward_run fetch (now - tfms * (limit : ℤ))
        (tfms * (limit : ℤ)) (Nat.find hstop) 0
        (fun i hi => by
          have := Nat.find_min hstop (by simpa using hi)
          simpa using eq_false_of_ne_true this)
        (by simpa using Nat.find_spec hstop)
      simpa [backCursor, backEarliest] using hrun

/-- **C2 witness.** On `fetchB` with `now = 50`, `timeframe_ms = 10` and
`limit = 2` the probe cursor 30, 10, -10 hits an empty page at iteration
2 and the loop stops there. -/
theorem backward_discovery_terminates_witness :
    0 < (10 : ℤ) * ((2 : ℕ) : ℤ) ∧
    (∃ i, backStopB fetchB ((50 : ℤ) - 10 * ((2 : ℕ) : ℤ))
      (10 * ((2 : ℕ) : ℤ)) i = true) ∧
    (backCursor ((50 : ℤ) - 10 * ((2 : ℕ) : ℤ)) (10 * ((2 : ℕ) : ℤ)) 0
        = (50 : ℤ) - 10 * ((2 : ℕ) : ℤ) ∧
     (∀ i, backCursor ((50 : ℤ) - 10 * ((2 : ℕ) : ℤ)) (10 * ((2 : ℕ) : ℤ)) (i + 1)
        = backCursor ((50 : ℤ) - 10 * ((2 : ℕ) : ℤ)) (10 * ((2 : ℕ) : ℤ)) i
          - 10 * ((2 : ℕ) : ℤ)) ∧
     (∀ i, backCursor ((50 : ℤ) - 10 * ((2 : ℕ) : ℤ)) (10 * ((2 : ℕ) : ℤ)) (i + 1)
        < backCursor ((50 : ℤ) - 10 * ((2 : ℕ) : ℤ)) (10 * ((2 : ℕ) : ℤ)) i) ∧
     ∃ k, (∀ j, j < k → backStopB fetchB ((50 : ℤ) - 10 * ((2 : ℕ) : ℤ))
          (10 * ((2 : ℕ) : ℤ)) j = false) ∧
      backStopB fetchB ((50 : ℤ) - 10 * ((2 : ℕ) : ℤ))
        (10 * ((2 : ℕ) : ℤ)) k = true ∧
      (∀ e, backEarliest fetchB ((50 : ℤ) - 10 * ((2 : ℕ) : ℤ))
          (10 * ((2 : ℕ) : ℤ)) k = some e → e ≠ []) ∧
      backwardDiscover fetchB (10 * ((2 : ℕ) : ℤ)) (k + 1)
          ((50 : ℤ) - 10 * ((2 : ℕ) : ℤ)) none
        = some (backEarliest fetchB ((50 : ℤ) - 10 * ((2 : ℕ) : ℤ))
            (10 * ((2 : ℕ) : ℤ)) k)) :=
  ⟨by decide, ⟨2, by decide⟩,
    backward_discovery_terminates fetchB 50 10 2 (by decide) ⟨2, by decide⟩⟩

/-! ### Forward walk: iteration view and stop conditions -/

/-- Candles appended between request `j` and the stop at request `j + d`:
every full intermediate page, plus the stopping page unless it was
dropped (empty or repeated first open time). -/
def fwdSeg (fetch : ℤ → List Candle) (tfms start : ℤ) : ℕ → ℕ → List Candle
  | j, 0 => if fwdDrop fetch tfms start j then [] else fwdPage fetch tfms start j
  | j, d + 1 => fwdPage fetch tfms start j ++ fwdSeg fetch tfms start (j + 1) d

theorem forward_run (fetch : ℤ → List Candle) (tfms start : ℤ) (limit : ℕ) :
    ∀ d j (acc : List Candle) (reqs : List ℤ),
      (∀ i, i < d → fwdStopB fetch tfms start limit (j + i) = false) →
      fwdStopB fetch tfms start limit (j + d) = true →
      forwardCollect fetch tfms limit (d + 1) (fwdSince fetch tfms start j)
          (fwdPrev fetch tfms start j) acc reqs
        = some (acc ++ fwdSeg fetch tfms start j d,
            reqs ++ (List.range (d + 1)).map
              (fun i => fwdSince fetch tfms start (j + i))) := by
  intro d
  induction d with
  | zero =>
    intro j acc reqs _ hstop
    simp only [Nat.add_zero] at hstop
    simp only [fwdStopB, fwdDrop, Bool.or_eq_true, decide_eq_true_eq] at hstop
    rw [forwardCollect]
    by_cases he : (fetch (fwdSince fetch tfms start j)).isEmpty
    · have hdrop : fwdDrop fetch tfms start j = true := by
        simp [fwdDrop, fwdPage, he]
      simp [he, fwdSeg, hdrop, List.range_succ]
    · by_cases hrep : fwdPrev fetch tfms start j
          = headTs (fetch (fwdSince fetch tfms start j))
      · have hdrop : fwdDrop fetch tfms start j = true := by
          simp [fwdDrop, fwdPage, hrep]
        simp [he, hrep, fwdSeg, hdrop, List.range_succ]
      · have hlen : (fwdPage fetch tfms start j).length < limit := by
          rcases hstop with (h | h) | h
          · exact absurd h (by simpa [fwdPage] using he)
          · exact absurd h (by simpa [fwdPage] using hrep)
          · exact h
        have hdrop : fwdDrop fetch tfms start j = false := by
          simp [fwdDrop, fwdPage, he, hrep]
        simp [he, hrep, fwdSeg, hdrop, fwdPage, List.range_succ] at hlen ⊢
        simp [hlen]
  | succ d ih =>
    intro j acc reqs hno hstop
    have h0 : fwdStopB fetch tfms start limit j = false := by
      have := hno 0 (Nat.succ_pos d)
      simpa using this
    simp only [fwdStopB, fwdDrop, fwdPage, Bool.or_eq_false_iff,
      decide_eq_false_iff_not] at h0
    rw [forwardCollect]
    simp only [h0.1.1, Bool.false_eq_true, if_false,
      if_neg h0.1.2, if_neg (by omega : ¬ (fetch (fwdSince fetch tfms start j)).length < limit)]
    have hsince : lastTs (fetch (fwdSince fetch tfms start j)) + tfms
        = fwdSince fetch tfms start (j + 1) := rfl
    have hprev : headTs (fetch (fwdSince fetch tfms start j))
        = fwdPrev fetch tfms start (j + 1) := rfl
    rw [hsince, hprev]
    have hidx : j + 1 + d = j + (d + 1) := by omega
    have := ih (j + 1) (acc ++ fetch (fwdSince fetch tfms start j))
      (reqs ++ [fwdSince fetch tfms start j])
      (fun i hi => by
        have := hno (i + 1) (Nat.succ_lt_succ hi)
        have harr : j + (i + 1) = j + 1 + i := by omega
        rwa [harr] at this)
      (by rwa [hidx])
    rw [this]
    have hseg : acc ++ fwdSeg fetch tfms start j (d + 1)
        = (acc ++ fetch (fwdSince fetch tfms start j))
            ++ fwdSeg fetch tfms start (j + 1) d := by
      rw [fwdSeg, List.append_assoc]
      rfl
    have hreq : reqs ++ (List.range (d + 1 + 1)).map
          (fun i => fwdSince fetch tfms start (j + i))
        = (reqs ++ [fwdSince fetch tfms start j])
            ++ (List.range (d + 1)).map
              (fun i => fwdSince fetch tfms start (j + 1 + i)) := by
      rw [List.range_succ_eq_map, List.map_cons, List.map_map]
      have hcomp : ((fun i => fwdSince fetch tfms start (j + i)) ∘ Nat.succ)
          = fun i => fwdSince fetch tfms start (j + 1 + i) := by
        funext i
        have harr : j + Nat.succ i = j + 1 + i := by omega
        simp [Function.comp, harr]
      rw [hcomp]
      simp
    rw [hseg, hreq]

/-- **C3.** The forward walk requests pages consecutively and stops
exactly at the first request whose page is empty, repeats the previous
page's first open time, or is shorter than the page limit; every earlier
request returned a non-empty, non-repeating page of at least `limit`
candles, so in particular no request is issued after the first short
page.  Moreover `_collect_full_ohlcv` starts this walk at the earliest
page's first open time. -/
theorem forward_walk_stops (fetch : ℤ → List Candle) (tfms start : ℤ)
    (limit : ℕ)
    (hstop : ∃ i, fwdStopB fetch tfms start limit i = true) :
    ∃ k,
      (∀ i, i < k →
        (fwdPage fetch tfms start i).isEmpty = false ∧
        fwdPrev fetch tfms start i ≠ headTs (fwdPage fetch tfms start i) ∧
        limit ≤ (fwdPage fetch tfms start i).length) ∧
      ((fwdPage fetch tfms start k).isEmpty = true ∨
        fwdPrev fetch tfms start k = headTs (fwdPage fetch tfms start k) ∨
        (fwdPage fetch tfms start k).length < limit) ∧
      (∀ i, i ≤ k → (fwdPage fetch tfms start i).length < limit → i = k) ∧
      forwardCollect fetch tfms limit (k + 1) start none [] []
        = some (fwdSeg fetch tfms start 0 k,
            (List.range (k + 1)).map (fwdSince fetch tfms start)) ∧
      (∀ (now : ℤ) (fuel : ℕ) (c0 : Candle) (rest : List Candle),
        backwardDiscover fetch (tfms * (limit : ℤ)) fuel
            (now - tfms * (limit : ℤ)) none = some (some (c0 :: rest)) →
        collectFullOhlcv fetch now tfms limit fuel
          = (forwardCollect fetch tfms limit fuel c0.ts none [] []).map
              (fun p => dedupSort p.1)) := by
  have hbefore : ∀ i, i < Nat.find hstop →
      (fwdPage fetch tfms start i).isEmpty = false ∧
      fwdPrev fetch tfms start i ≠ headTs (fwdPage fetch tfms start i) ∧
      limit ≤ (fwdPage fetch tfms start i).length := by
    intro i hi
    have := Nat.find_min hstop hi
    have hfalse : fwdStopB fetch tfms start limit i = false :=
      eq_false_of_ne_true this
    simp only [fwdStopB, fwdDrop, Bool.or_eq_false_iff,
      decide_eq_false_iff_not] at hfalse
    exact ⟨hfalse.1.1, hfalse.1.2, by omega⟩
  have hdisj : ∀ i, fwdStopB fetch tfms start limit i = true →
      (fwdPage fetch tfms start i).isEmpty = true ∨
        fwdPrev fetch tfms start i = headTs (fwdPage fetch tfms start i) ∨
        (fwdPage fetch tfms start i).length < limit := by
    intro i hi
    simp only [fwdStopB, fwdDrop, Bool.or_eq_true, decide_eq_true_eq] at hi
    tauto
  refine ⟨Nat.find hstop, hbefore, hdisj _ (Nat.find_spec hstop), ?_, ?_, ?_⟩
  · intro i hik hshort
    rcases Nat.lt_or_ge i (Nat.find hstop) with hlt | _
    · have := (hbefore i hlt).2.2
      omega
    · omega
  · have hrun := forward_run fetch tfms start limit (Nat.find hstop) 0 [] []
      (fun i hi => by
        have := Nat.find_min hstop (by simpa using hi)
        simpa using eq_false_of_ne_true this)
      (by simpa using Nat.find_spec hstop)
    simpa [fwdSince, fwdPrev] using hrun
  · intro now fuel c0 rest hback
    unfold collectFullOhlcv
    rw [hback]

/-- Daily-resolution page fixture: candle at open time 0. -/
def d1 : Candle := ⟨0, some 1, some 2, some 1, some 2, some 100⟩

/-- Fixture candle at open time 10. -/
def d2 : Candle := ⟨10, some 2, some 3, some 1, some 2, some 50⟩

/-- Fixture candle at open time 20. -/
def d3 : Candle := ⟨20, some 2, some 4, some 2, some 3, some 10⟩

/-- A connector returning progressively shorter pages: a full page of two
candles at cursor 0, then a single (short) candle at cursor 20. -/
def fetchC (s : ℤ) : List Candle :=
  if s = 0 then [d1, d2] else if s = 20 then [d3] else []

/-- **C3 witness.** On `fetchC` with `timeframe_ms = 10` and `limit = 2`
the walk requests cursors 0 and 20 and stops at the short page `[d3]`
without issuing another request. -/
theorem forward_walk_stops_witness :
    (∃ i, fwdStopB fetchC 10 0 2 i = true) ∧
    (∃ k,
      (∀ i, i < k →
        (fwdPage fetchC 10 0 i).isEmpty = false ∧
        fwdPrev fetchC 10 0 i ≠ headTs (fwdPage fetchC 10 0 i) ∧
        2 ≤ (fwdPage fetchC 10 0 i).length) ∧
      ((fwdPage fetchC 10 0 k).isEmpty = true ∨
        fwdPrev fetchC 10 0 k = headTs (fwdPage fetchC 10 0 k) ∨
        (fwdPage fetchC 10 0 k).length < 2) ∧
      (∀ i, i ≤ k → (fwdPage fetchC 10 0 i).length < 2 → i = k) ∧
      forwardCollect fetchC 10 2 (k + 1) 0 none [] []
        = some (fwdSeg fetchC 10 0 0 k,
            (List.range (k + 1)).map (fwdSince fetchC 10 0)) ∧
      (∀ (now : ℤ) (fuel : ℕ) (c0 : Candle) (rest : List Candle),
        backwardDiscover fetchC (10 * ((2 : ℕ) : ℤ)) fuel
            (now - 10 * ((2 : ℕ) : ℤ)) none = some (some (c0 :: rest)) →
        collectFullOhlcv fetchC now 10 2 fuel
          = (forwardCollect fetchC 10 2 fuel c0.ts none [] []).map
              (fun p => dedupSort p.1))) :=
  ⟨⟨1, by decide⟩, forward_walk_stops fetchC 10 0 2 ⟨1, by decide⟩⟩

/-! ### Day-candle selection -/

theorem pyMaxByTs_mem (c : Candle) (cs : List Candle) :
    pyMaxByTs c cs ∈ c :: cs := by
  induction cs generalizing c with
  | nil => exact List.mem_singleton.mpr rfl
  | cons x xs ih =>
    have hstep : pyMaxByTs c (x :: xs)
        = pyMaxByTs (if c.ts < x.ts then x else c) xs := rfl
    rw [hstep]
    have := ih (if c.ts < x.ts then x else c)
    rcases List.mem_cons.mp this with h | h
    · rw [h]
      by_cases hx : c.ts < x.ts
      · simp [hx]
      · simp [hx]
    · exact List.mem_cons_of_mem c (List.mem_cons_of_mem x h)

theorem pyMaxByTs_ge (c : Candle) (cs : List Candle) :
    ∀ x ∈ c :: cs, x.ts ≤ (pyMaxByTs c cs).ts := by
  induction cs generalizing c with
  | nil =>
    intro x hx
    rw [List.mem_singleton.mp hx]
    exact le_refl _
  | cons y ys ih =>
    intro x hx
    have hstep : pyMaxByTs c (y :: ys)
        = pyMaxByTs (if c.ts < y.ts then y else c) ys := rfl
    rw [hstep]
    have hc : c.ts ≤ (if c.ts < y.ts then y else c).ts := by
      by_cases h : c.ts < y.ts
      · simp [h]; omega
      · simp [h]
    have hy : y.ts ≤ (if c.ts < y.ts then y else c).ts := by
      by_cases h : c.ts < y.ts
      · simp [h]
      · simp [h]; omega
    have hfold := ih (if c.ts < y.ts then y else c)
    rcases List.mem_cons.mp hx with rfl | hx2
    · exact le_trans hc (hfold _ (List.mem_cons_self _ _))
    · rcases List.mem_cons.mp hx2 with rfl | hx3
      · exact le_trans hy (hfold _ (List.mem_cons_self _ _))
      · exact hfold _ (List.mem_cons_of_mem _ hx3)

/-- **C4.** `fetch_exchange_stats` selects the day candle by the
three-tier rule: a candle whose `[open, open + 1 day)` interval contains
the target timestamp if one exists; otherwise the candle with the latest
open time not after the target, when one exists; otherwise the first
returned daily candle. -/
theorem select_day_candle_three_tier (d0 : Candle) (rest : List Candle)
    (dms T : ℤ) :
    ((∃ c ∈ d0 :: rest, c.ts ≤ T ∧ T < c.ts + dms) →
      ∃ c, selectDayCandle (d0 :: rest) dms T = some c ∧ c ∈ d0 :: rest ∧
        c.ts ≤ T ∧ T < c.ts + dms) ∧
    ((∀ c ∈ d0 :: rest, ¬(c.ts ≤ T ∧ T < c.ts + dms)) →
      (∃ c ∈ d0 :: rest, c.ts ≤ T) →
      ∃ c, selectDayCandle (d0 :: rest) dms T = some c ∧ c ∈ d0 :: rest ∧
        c.ts ≤ T ∧ ∀ x ∈ d0 :: rest, x.ts ≤ T → x.ts ≤ c.ts) ∧
    ((∀ c ∈ d0 :: rest, ¬c.ts ≤ T) →
      selectDayCandle (d0 :: rest) dms T = some d0) := by
  refine ⟨?_, ?_, ?_⟩
  · rintro ⟨c, hc, hle, hlt⟩
    have hsome : ((d0 :: rest).find? (containsTs dms T)).isSome := by
      rw [List.find?_isSome]
      exact ⟨c, hc, by simp [containsTs, hle, hlt]⟩
    rcases Option.isSome_iff_exists.mp hsome with ⟨c2, hc2⟩
    have hprops := List.find?_some hc2
    simp only [containsTs, Bool.and_eq_true, decide_eq_true_eq] at hprops
    refine ⟨c2, ?_, List.mem_of_find?_eq_some hc2, hprops.1, hprops.2⟩
    rw [selectDayCandle, hc2]
  · intro hnone hex
    have hfind : (d0 :: rest).find? (containsTs dms T) = none := by
      rw [List.find?_eq_none]
      intro x hx
      have := hnone x hx
      simp only [containsTs, Bool.and_eq_true, decide_eq_true_eq]
      tauto
    rcases hex with ⟨c, hc, hle⟩
    cases hfil : (d0 :: rest).filter (fun c => decide (c.ts ≤ T)) with
    | nil =>
      have := List.filter_eq_nil_iff.mp hfil c hc
      simp [hle] at this
    | cons e es =>
      refine ⟨pyMaxByTs e es, ?_, ?_, ?_, ?_⟩
      · rw [selectDayCandle, hfind, hfil]
      · have hmem := pyMaxByTs_mem e es
        rw [← hfil] at hmem
        exact (List.mem_filter.mp hmem).1
      · have hmem := pyMaxByTs_mem e es
        rw [← hfil] at hmem
        have := (List.mem_filter.mp hmem).2
        simpa using this
      · intro x hx hxle
        have hxf : x ∈ (d0 :: rest).filter (fun c => decide (c.ts ≤ T)) :=
          List.mem_filter.mpr ⟨hx, by simpa using hxle⟩
        rw [hfil] at hxf
        exact pyMaxByTs_ge e es x hxf
  · intro hafter
    have hfind : (d0 :: rest).find? (containsTs dms T) = none := by
      rw [List.find?_eq_none]
      intro x hx
      have := hafter x hx
      simp only [containsTs, Bool.and_eq_true, decide_eq_true_eq]
      tauto
    have hfil : (d0 :: rest).filter (fun c => decide (c.ts ≤ T)) = [] := by
      rw [List.filter_eq_nil_iff]
      intro x hx
      simpa using hafter x hx
    rw [selectDayCandle, hfind, hfil]

/-- Daily candle two days before the reference midnight. -/
def w1 : Candle := ⟨0, some 1, some 2, some 1, some 2, some 10⟩

/-- Daily candle one day before the reference midnight. -/
def w2 : Candle := ⟨86400000, some 2, some 3, some 1, some 2, some 10⟩

/-- Daily candle opening at the reference midnight. -/
def w3 : Candle := ⟨172800000, some 2, some 4, some 2, some 3, some 10⟩

/-- **C4 witness.** With daily candles opening at `T-2d`, `T-1d`, `T`
and a TGE timestamp of `T + 3h`, the containment tier selects the candle
opening at `T`, not the one at `T-1d`. -/
theorem select_day_candle_three_tier_witness :
    (∃ c ∈ w1 :: [w2, w3], c.ts ≤ 183600000 ∧
      (183600000 : ℤ) < c.ts + 86400000) ∧
    (∃ c, selectDayCandle (w1 :: [w2, w3]) 86400000 183600000 = some c ∧
      c ∈ w1 :: [w2, w3] ∧ c.ts ≤ 183600000 ∧
      (183600000 : ℤ) < c.ts + 86400000) ∧
    selectDayCandle (w1 :: [w2, w3]) 86400000 183600000 = some w3 :=
  ⟨⟨w3, by decide, by decide⟩,
    (select_day_candle_three_tier w1 [w2, w3] 86400000 183600000).1
      ⟨w3, by decide, by decide⟩,
    by decide⟩

/-! ### `fetch_exchange_stats`: branch shapes -/

theorem fetchStats_day_branch (fetch : ℤ → List Candle)
    (fd : ℤ → Except Unit (List Candle)) (now tfms : ℤ) (limit fuel : ℕ)
    (expected : Option ℤ) (tc : Candle) (rest : List Candle)
    (hc : collectFullOhlcv fetch now tfms limit fuel = some (tc :: rest))
    (hnb : tgeNoteCheck expected tc.ts = false) :
    fetchExchangeStats fetch fd now tfms limit fuel expected
      = .ok { tge_ts := tc.ts, tge_open := tc.o,
              first_15m_volume := first15mVolume tc,
              day_open := (dayStage fd tc.ts tc.o).1,
              day_high := (dayStage fd tc.ts tc.o).2.1,
              day_delta_ratio := (dayStage fd tc.ts tc.o).2.2,
              note := none } := by
  unfold fetchExchangeStats
  rw [hc]
  simp [hnb]

theorem fetchStats_note_branch (fetch : ℤ → List Candle)
    (fd : ℤ → Except Unit (List Candle)) (now tfms : ℤ) (limit fuel : ℕ)
    (expected : Option ℤ) (tc : Candle) (rest : List Candle)
    (hc : collectFullOhlcv fetch now tfms limit fuel = some (tc :: rest))
    (hnb : tgeNoteCheck expected tc.ts = true) :
    fetchExchangeStats fetch fd now tfms limit fuel expected
      = .ok { tge_ts := tc.ts, tge_open := tc.o,
              first_15m_volume := first15mVolume tc,
              day_open := none, day_high := none, day_delta_ratio := none,
              note := some noteText } := by
  unfold fetchExchangeStats
  rw [hc]
  simp [hnb]

/-! ### C5: the delta ratio divides by the TGE open -/

/-- **C5.** When the day stage runs, a day candle is selected, its high is
present, and the TGE candle's open is a nonzero `o`, the reported
`day_delta_ratio` is the selected candle's high divided by `o` — the TGE
open — while the selected candle's own open is reported unchanged as
`day_open`. -/
theorem day_delta_ratio_uses_tge_open (fetch : ℤ → List Candle)
    (fd : ℤ → Except Unit (List Candle)) (now tfms : ℤ) (limit fuel : ℕ)
    (expected : Option ℤ) (tc : Candle) (rest day : List Candle)
    (dc : Candle) (dh o : ℚ)
    (hc : collectFullOhlcv fetch now tfms limit fuel = some (tc :: rest))
    (hnb : tgeNoteCheck expected tc.ts = false)
    (hfd : fd (tc.ts - dayTfMs * 2) = .ok day)
    (hsel : selectDayCandle day dayTfMs tc.ts = some dc)
    (hh : dc.h = some dh) (ho : tc.o = some o) (ho0 : o ≠ 0) :
    ∃ s, fetchExchangeStats fetch fd now tfms limit fuel expected = .ok s ∧
      s.day_delta_ratio = some (dh / o) ∧ s.day_open = dc.o ∧
      s.day_high = some dh := by
  have hday : dayStage fd tc.ts tc.o = (dc.o, dc.h, some (dh / o)) := by
    simp only [dayStage, hfd, hsel, ho, hh]
    rw [if_neg ho0]
  refine ⟨_, fetchStats_day_branch fetch fd now tfms limit fuel expected
    tc rest hc hnb, ?_, ?_, ?_⟩
  · rw [hday]
  · rw [hday]
  · rw [hday]
    exact hh

/-- The TGE candle fixture: open time 1, open price 2, volume 5. -/
def tw : Candle := ⟨1, some 2, some 3, some 1, some 2, some 5⟩

/-- A connector that always returns the single TGE candle `tw`. -/
def fetchW (_ : ℤ) : List Candle := [tw]

/-- Daily candle fixture: open 5, high 10, containing open time 1. -/
def dayW : Candle := ⟨0, some 5, some 10, some 1, some 6, some 1000⟩

/-- A daily fetcher that always returns `[dayW]`. -/
def fdW (_ : ℤ) : Except Unit (List Candle) := .ok [dayW]

/-- A daily fetcher that always fails. -/
def fdErr (_ : ℤ) : Except Unit (List Candle) := .error ()

/-- **C5 witness.** Day high 10, TGE open 2, day open 5: the reported
ratio is 10 / 2 = 5, not 10 / 5. -/
theorem day_delta_ratio_uses_tge_open_witness :
    collectFullOhlcv fetchW 100 15 2 2 = some (tw :: []) ∧
    tgeNoteCheck none tw.ts = false ∧
    fdW (tw.ts - dayTfMs * 2) = .ok [dayW] ∧
    selectDayCandle [dayW] dayTfMs tw.ts = some dayW ∧
    dayW.h = some 10 ∧ tw.o = some 2 ∧ (2 : ℚ) ≠ 0 ∧
    (10 : ℚ) / 2 = 5 ∧
    ∃ s, fetchExchangeStats fetchW fdW 100 15 2 2 none = .ok s ∧
      s.day_delta_ratio = some ((10 : ℚ) / 2) ∧ s.day_open = dayW.o ∧
      s.day_high = some 10 :=
  ⟨by decide, rfl, rfl, by decide, rfl, rfl, by norm_num, by norm_num,
    day_delta_ratio_uses_tge_open fetchW fdW 100 15 2 2 none tw [] [dayW]
      dayW 10 2 (by decide) rfl rfl (by decide) rfl rfl (by norm_num)⟩

/-! ### C6: reference-price fallback for the 15-minute volume -/

theorem referencePrice_spec {c : Candle} {p : ℚ}
    (h : referencePrice c = some p) :
    p ≠ 0 ∧ ∃ l1 l2, [c.c, c.o, c.h, c.l] = l1 ++ some p :: l2 ∧
      ∀ x ∈ l1, priceTruthy x = false := by
  unfold referencePrice at h
  cases hf : [c.c, c.o, c.h, c.l].find? priceTruthy with
  | none => rw [hf] at h; simp [Option.join] at h
  | some x =>
    rw [hf] at h
    have hx : x = some p := by simpa [Option.join] using h
    subst hx
    have htr := List.find?_some hf
    have hp : p ≠ 0 := by simpa [priceTruthy] using htr
    rcases (List.find?_eq_some.mp hf).2 with ⟨l1, l2, heq, hall⟩
    exact ⟨hp, l1, l2, heq, fun x hx => by simpa using hall x hx⟩

/-- **C6.** The reported first-15-minute quote volume is the TGE candle's
base volume times the reference price, and the reference price is the
first entry of `[close, open, high, low]` that is present and nonzero
(all earlier entries being absent or zero). -/
theorem first15m_volume_reference_price (fetch : ℤ → List Candle)
    (fd : ℤ → Except Unit (List Candle)) (now tfms : ℤ) (limit fuel : ℕ)
    (expected : Option ℤ) (tc : Candle) (rest : List Candle) (v p : ℚ)
    (hc : collectFullOhlcv fetch now tfms limit fuel = some (tc :: rest))
    (hv : tc.v = some v) (hv0 : v ≠ 0)
    (hp : referencePrice tc = some p) :
    (∃ s, fetchExchangeStats fetch fd now tfms limit fuel expected = .ok s ∧
      s.first_15m_volume = some (v * p)) ∧
    p ≠ 0 ∧ ∃ l1 l2, [tc.c, tc.o, tc.h, tc.l] = l1 ++ some p :: l2 ∧
      ∀ x ∈ l1, priceTruthy x = false := by
  have h15 : first15mVolume tc = some (v * p) := by
    unfold first15mVolume
    rw [hv, hp]
    simp [hv0]
  constructor
  · cases hnb : tgeNoteCheck expected tc.ts with
    | false =>
      exact ⟨_, fetchStats_day_branch fetch fd now tfms limit fuel expected
        tc rest hc hnb, h15⟩
    | true =>
      exact ⟨_, fetchStats_note_branch fetch fd now tfms limit fuel expected
        tc rest hc hnb, h15⟩
  · exact referencePrice_spec hp

/-- A TGE candle whose close is zero and open absent: the reference price
must fall back to the high. -/
def tz : Candle := ⟨1, none, some 7, some 3, some 0, some 2⟩

/-- A connector that always returns the single candle `tz`. -/
def fetchZ (_ : ℤ) : List Candle := [tz]

/-- **C6 witness.** With close 0, open absent, high 7, low 3 and volume 2
the reference price is 7 and the reported volume is 2 × 7 = 14. -/
theorem first15m_volume_reference_price_witness :
    collectFullOhlcv fetchZ 100 15 2 2 = some (tz :: []) ∧
    tz.v = some 2 ∧ (2 : ℚ) ≠ 0 ∧ referencePrice tz = some 7 ∧
    ((∃ s, fetchExchangeStats fetchZ fdErr 100 15 2 2 none = .ok s ∧
       s.first_15m_volume = some ((2 : ℚ) * 7)) ∧
     (7 : ℚ) ≠ 0 ∧ ∃ l1 l2, [tz.c, tz.o, tz.h, tz.l] = l1 ++ some 7 :: l2 ∧
       ∀ x ∈ l1, priceTruthy x = false) :=
  ⟨by decide, rfl, by decide, by decide,
    first15m_volume_reference_price fetchZ fdErr 100 15 2 2 none tz [] 2 7
      (by decide) rfl (by decide) (by decide)⟩

/-! ### C7: the history-after-TGE note -/

/-- **C7 counterexample.** A supplied expected TGE timestamp of 0 with
earliest candle open time 1 (strictly after it): the truthiness test
`if expected_tge_ts and ...` treats the supplied 0 as absent, so the
returned result carries no note and the day stage still runs, contrary
to the claim for this input. -/
theorem history_after_tge_note_counterexample :
    collectFullOhlcv fetchW 100 15 2 2 = some [tw] ∧
    (0 : ℤ) < tw.ts ∧
    fetchExchangeStats fetchW fdErr 100 15 2 2 (some 0)
      = .ok { tge_ts := 1, tge_open := some 2, first_15m_volume := some 10,
              day_open := none, day_high := none, day_delta_ratio := none,
              note := none } := by
  refine ⟨by decide, by decide, ?_⟩
  rw [fetchStats_day_branch fetchW fdErr 100 15 2 2 (some 0) tw []
    (by decide) (by decide)]
  have h1 : first15mVolume tw = some 10 := by
    have hr : referencePrice tw = some 2 := by decide
    unfold first15mVolume
    rw [hr, show tw.v = some 5 from rfl]
    norm_num
  have h2 : dayStage fdErr tw.ts tw.o = (none, none, none) := rfl
  rw [h1, h2]
  rfl

/-- **C7 (amended).** If the supplied expected TGE timestamp is nonzero
and the discovered earliest open time is strictly after it, the result
carries the history-after-TGE note, keeps the TGE timestamp, open and
15-minute volume, has all three day fields absent, and is independent of
the daily fetcher (no daily request is consulted). -/
theorem history_after_tge_note (fetch : ℤ → List Candle)
    (fd : ℤ → Except Unit (List Candle)) (now tfms : ℤ) (limit fuel : ℕ)
    (e : ℤ) (tc : Candle) (rest : List Candle)
    (hc : collectFullOhlcv fetch now tfms limit fuel = some (tc :: rest))
    (he0 : e ≠ 0) (hgt : e < tc.ts) :
    fetchExchangeStats fetch fd now tfms limit fuel (some e)
      = .ok { tge_ts := tc.ts, tge_open := tc.o,
              first_15m_volume := first15mVolume tc,
              day_open := none, day_high := none, day_delta_ratio := none,
              note := some noteText } ∧
    ∀ fd2 : ℤ → Except Unit (List Candle),
      fetchExchangeStats fetch fd2 now tfms limit fuel (some e)
        = fetchExchangeStats fetch fd now tfms limit fuel (some e) := by
  have hnb : tgeNoteCheck (some e) tc.ts = true := by
    simp [tgeNoteCheck, he0, hgt]
  constructor
  · exact fetchStats_note_branch fetch fd now tfms limit fuel (some e)
      tc rest hc hnb
  · intro fd2
    rw [fetchStats_note_branch fetch fd now tfms limit fuel (some e)
        tc rest hc hnb,
      fetchStats_note_branch fetch fd2 now tfms limit fuel (some e)
        tc rest hc hnb]

/-- **C7 witness.** Expected timestamp 1 with earliest open time 10: the
note is attached, day statistics are absent, and swapping the daily
fetcher does not change the result. -/
theorem history_after_tge_note_witness :
    collectFullOhlcv fetchB 50 10 2 3 = some (b1 :: [b2x, b3]) ∧
    (1 : ℤ) ≠ 0 ∧ (1 : ℤ) < b1.ts ∧
    (fetchExchangeStats fetchB fdW 50 10 2 3 (some 1)
      = .ok { tge_ts := b1.ts, tge_open := b1.o,
              first_15m_volume := first15mVolume b1,
              day_open := none, day_high := none, day_delta_ratio := none,
              note := some noteText } ∧
     ∀ fd2 : ℤ → Except Unit (List Candle),
       fetchExchangeStats fetchB fd2 50 10 2 3 (some 1)
         = fetchExchangeStats fetchB fdW 50 10 2 3 (some 1)) :=
  ⟨by decide, by decide, by decide,
    history_after_tge_note fetchB fdW 50 10 2 3 1 b1 [b2x, b3]
      (by decide) (by decide) (by decide)⟩

/-! ### C8: day-stage failures degrade, never abort -/

/-- **C8.** Once the earliest candle is found, `fetch_exchange_stats`
always returns a result (never raises) whose TGE timestamp, open and
15-minute volume come from that candle; and if the daily fetch fails,
the same result is returned with all three day fields absent. -/
theorem day_failure_degrades (fetch : ℤ → List Candle)
    (fd : ℤ → Except Unit (List Candle)) (now tfms : ℤ) (limit fuel : ℕ)
    (expected : Option ℤ) (tc : Candle) (rest : List Candle)
    (hc : collectFullOhlcv fetch now tfms limit fuel = some (tc :: rest)) :
    (∃ s, fetchExchangeStats fetch fd now tfms limit fuel expected = .ok s ∧
      s.tge_ts = tc.ts ∧ s.tge_open = tc.o ∧
      s.first_15m_volume = first15mVolume tc) ∧
    (fd (tc.ts - dayTfMs * 2) = .error () →
      ∃ s, fetchExchangeStats fetch fd now tfms limit fuel expected = .ok s ∧
        s.tge_ts = tc.ts ∧ s.tge_open = tc.o ∧
        s.first_15m_volume = first15mVolume tc ∧
        s.day_open = none ∧ s.day_high = none ∧
        s.day_delta_ratio = none) := by
  cases hnb : tgeNoteCheck expected tc.ts with
  | false =>
    have hbr := fetchStats_day_branch fetch fd now tfms limit fuel expected
      tc rest hc hnb
    refine ⟨⟨_, hbr, rfl, rfl, rfl⟩, ?_⟩
    intro herr
    have hday : dayStage fd tc.ts tc.o = (none, none, none) := by
      unfold dayStage
      rw [herr]
    refine ⟨_, hbr, rfl, rfl, rfl, ?_, ?_, ?_⟩ <;> rw [hday]
  | true =>
    have hbr := fetchStats_note_branch fetch fd now tfms limit fuel expected
      tc rest hc hnb
    exact ⟨⟨_, hbr, rfl, rfl, rfl⟩,
      fun _ => ⟨_, hbr, rfl, rfl, rfl, rfl, rfl, rfl⟩⟩

/-- **C8 witness.** With an always-failing daily fetcher the result is
still returned: TGE fields intact, day fields absent. -/
theorem day_failure_degrades_witness :
    collectFullOhlcv fetchW 100 15 2 2 = some (tw :: []) ∧
    fdErr (tw.ts - dayTfMs * 2) = .error () ∧
    ∃ s, fetchExchangeStats fetchW fdErr 100 15 2 2 none = .ok s ∧
      s.tge_ts = tw.ts ∧ s.tge_open = tw.o ∧
      s.first_15m_volume = first15mVolume tw ∧
      s.day_open = none ∧ s.day_high = none ∧ s.day_delta_ratio = none :=
  ⟨by decide, rfl,
    (day_failure_degrades fetchW fdErr 100 15 2 2 none tw [] (by decide)).2
      rfl⟩

/-! ### C10: zero or absent volume is reported as absent, never 0 -/

/-- **C10.** If the TGE candle's volume is absent or zero, or no nonzero
reference price exists, the reported 15-minute volume is `none`; and the
reported 15-minute volume is never the number 0. -/
theorem first15m_never_zero (fetch : ℤ → List Candle)
    (fd : ℤ → Except Unit (List Candle)) (now tfms : ℤ) (limit fuel : ℕ)
    (expected : Option ℤ) (tc : Candle) (rest : List Candle) (s : TgeStats)
    (hc : collectFullOhlcv fetch now tfms limit fuel = some (tc :: rest))
    (hs : fetchExchangeStats fetch fd now tfms limit fuel expected = .ok s) :
    ((tc.v = none ∨ tc.v = some 0 ∨ referencePrice tc = none) →
      s.first_15m_volume = none) ∧
    s.first_15m_volume ≠ some 0 := by
  have h15 : s.first_15m_volume = first15mVolume tc := by
    cases hnb : tgeNoteCheck expected tc.ts with
    | false =>
      rw [fetchStats_day_branch fetch fd now tfms limit fuel expected
        tc rest hc hnb] at hs
      injection hs with hs2
      rw [← hs2]
    | true =>
      rw [fetchStats_note_branch fetch fd now tfms limit fuel expected
        tc rest hc hnb] at hs
      injection hs with hs2
      rw [← hs2]
  rw [h15]
  constructor
  · rintro (hv | hv | hp)
    · unfold first15mVolume
      rw [hv]
    · unfold first15mVolume
      rw [hv]
      cases referencePrice tc with
      | none => rfl
      | some p => simp
    · unfold first15mVolume
      rw [hp]
      cases tc.v <;> rfl
  · unfold first15mVolume
    cases hv : tc.v with
    | none => simp
    | some v =>
      cases hp : referencePrice tc with
      | none => simp
      | some p =>
        have hpne := (referencePrice_spec hp).1
        by_cases hv0 : v = 0
        · simp [hv0]
        · simp only [if_neg hv0, ne_eq, Option.some_inj]
          exact fun habs => hpne (by
            rcases mul_eq_zero.mp habs with h | h
            · exact absurd h hv0
            · exact h)

/-- A TGE candle with absent base volume. -/
def tv : Candle := ⟨1, some 2, some 3, some 1, some 2, none⟩

/-- A connector that always returns the single candle `tv`. -/
def fetchV (_ : ℤ) : List Candle := [tv]

/-- The statistics record produced for `tv` with a failing daily fetcher. -/
def statsV : TgeStats := ⟨1, some 2, none, none, none, none, none⟩

/-- **C10 witness.** A candle with absent volume: the reported 15-minute
volume is absent and in particular not 0. -/
theorem first15m_never_zero_witness :
    collectFullOhlcv fetchV 100 15 2 2 = some (tv :: []) ∧
    fetchExchangeStats fetchV fdErr 100 15 2 2 none = .ok statsV ∧
    tv.v = none ∧
    (statsV.first_15m_volume = none ∧ statsV.first_15m_volume ≠ some 0) :=
  ⟨by decide, by rfl, rfl,
    ⟨(first15m_never_zero fetchV fdErr 100 15 2 2 none tv [] statsV
        (by decide) (by rfl)).1 (Or.inl rfl),
      (first15m_never_zero fetchV fdErr 100 15 2 2 none tv [] statsV
        (by decide) (by rfl)).2⟩⟩

/-! ### C9: market resolution policy -/

theorem head_filter_eq_find (p : α → Bool) (l : List α) :
    (l.filter p).head? = l.find? p := by
  induction l with
  | nil => rfl
  | cons x xs ih =>
    by_cases h : p x <;> simp [List.filter_cons, List.find?_cons, h, ih]

theorem marketMatches_true_eq (nb nq : String) (m : Market) :
    marketMatches nb nq true m = (marketMatches nb nq false m && m.spot) := by
  simp only [marketMatches, Bool.not_true, Bool.not_false, Bool.false_or,
    Bool.true_or, Bool.and_true]

theorem matchingMarkets_cons_of_find (markets : List Market)
    (nb nq : String) (ps : Bool) (m : Market)
    (hf : markets.find? (marketMatches nb nq ps) = some m) :
    ∃ t, matchingMarkets markets nb nq ps = m :: t := by
  unfold matchingMarkets
  rw [← head_filter_eq_find] at hf
  cases hfil : markets.filter (marketMatches nb nq ps) with
  | nil => rw [hfil] at hf; cases hf
  | cons a t =>
    rw [hfil] at hf
    injection hf with ha
    exact ⟨t, by rw [ha]⟩

/-- **C9.** The resolver selects the first spot market matching the
case-insensitive pair; only with no spot match does it select the first
match at all, which is then necessarily non-spot; and it reports the
pair-not-found error exactly when no market, spot or otherwise,
matches. -/
theorem market_resolver_policy (markets : List Market) (base quote : String) :
    (∀ m, markets.find? (marketMatches (pyUpper base) (pyUpper quote) true)
        = some m →
      prepareExchangeMarket markets base quote = .ok m ∧ m ∈ markets ∧
        marketMatches (pyUpper base) (pyUpper quote) true m = true) ∧
    (markets.find? (marketMatches (pyUpper base) (pyUpper quote) true) = none →
      ∀ m, markets.find? (marketMatches (pyUpper base) (pyUpper quote) false)
          = some m →
        prepareExchangeMarket markets base quote = .ok m ∧ m ∈ markets ∧
          marketMatches (pyUpper base) (pyUpper quote) false m = true ∧
          m.spot = false) ∧
    (prepareExchangeMarket markets base quote = .error () ↔
      ∀ m ∈ markets,
        marketMatches (pyUpper base) (pyUpper quote) false m = false) := by
  refine ⟨?_, ?_, ?_⟩
  · intro m hf
    rcases matchingMarkets_cons_of_find markets _ _ true m hf with ⟨t, ht⟩
    refine ⟨?_, List.mem_of_find?_eq_some hf, List.find?_some hf⟩
    unfold prepareExchangeMarket
    rw [ht]
  · intro hnone m hf
    have hspot_nil : matchingMarkets markets (pyUpper base) (pyUpper quote) true
        = [] := by
      unfold matchingMarkets
      rw [List.filter_eq_nil_iff]
      intro x hx
      have := List.find?_eq_none.mp hnone x hx
      simpa using this
    rcases matchingMarkets_cons_of_find markets _ _ false m hf with ⟨t, ht⟩
    have hmem := List.mem_of_find?_eq_some hf
    have hmatch := List.find?_some hf
    have hspot : m.spot = false := by
      have htrue : marketMatches (pyUpper base) (pyUpper quote) true m = false := by
        have := List.find?_eq_none.mp hnone m hmem
        simpa using this
      rw [marketMatches_true_eq, hmatch, Bool.true_and] at htrue
      exact htrue
    refine ⟨?_, hmem, hmatch, hspot⟩
    unfold prepareExchangeMarket
    rw [hspot_nil, ht]
  · constructor
    · intro herr m hm
      cases hany : matchingMarkets markets (pyUpper base) (pyUpper quote) false with
      | nil =>
        unfold matchingMarkets at hany
        have := List.filter_eq_nil_iff.mp hany m hm
        simpa using this
      | cons a t =>
        exfalso
        cases hspot : matchingMarkets markets (pyUpper base) (pyUpper quote) true with
        | nil =>
          unfold prepareExchangeMarket at herr
          rw [hspot, hany] at herr
          cases herr
        | cons b u =>
          unfold prepareExchangeMarket at herr
          rw [hspot] at herr
          cases herr
    · intro hno
      have hany : matchingMarkets markets (pyUpper base) (pyUpper quote) false
          = [] := by
        unfold matchingMarkets
        rw [List.filter_eq_nil_iff]
        intro x hx
        simp [hno x hx]
      have hspot : matchingMarkets markets (pyUpper base) (pyUpper quote) true
          = [] := by
        unfold matchingMarkets
        rw [List.filter_eq_nil_iff]
        intro x hx
        rw [marketMatches_true_eq, hno x hx, Bool.false_and]
        simp
      unfold prepareExchangeMarket
      rw [hspot, hany]

/-- A derivative (non-spot) market listed before the spot market. -/
def mDeriv : Market := ⟨some "AbC", some "usdt", false, "ABC/USDT:PERP"⟩

/-- The spot market for the same pair. -/
def mSpot : Market := ⟨some "abc", some "USDT", true, "ABC/USDT"⟩

/-- **C9 witness.** With a derivative market listed first, the resolver
still picks the spot market for the case-insensitively matching pair. -/
theorem market_resolver_policy_witness :
    [mDeriv, mSpot].find?
        (marketMatches (pyUpper "aBc") (pyUpper "Usdt") true) = some mSpot ∧
    (prepareExchangeMarket [mDeriv, mSpot] "aBc" "Usdt" = .ok mSpot ∧
      mSpot ∈ [mDeriv, mSpot] ∧
      marketMatches (pyUpper "aBc") (pyUpper "Usdt") true mSpot = true) :=
  ⟨by decide,
    (market_resolver_policy [mDeriv, mSpot] "aBc" "Usdt").1 mSpot (by decide)⟩

end TgeVolume
